import Mathlib

/-!
# Verification of the calibration-tools processing pipeline and slice-editor project

A shallow embedding of the orchestrator loop of
`Voxel-Stack-Blender-feature-roi-blending-1/processing_pipeline.py`
(`ProcessingPipelineThread.run`, `_process_single_image_task`,
`stop_processing`) and of the undo/redo machinery of
`Interactive-Slice-Editor/project.py` (`Project.add_edit`,
`Project.perform_undo`, `Project.perform_redo`), together with theorems
settling the frozen claims about them.

Modelling conventions:
* Filenames are lists of characters (`FName`).  The regex
  `(\d+)\.\w+$` used by `get_numeric_part` is modelled by
  `getNumericPart` over ASCII character classes.
* Image and error payloads are abstract type parameters; image loading,
  the blend/compose core and per-task outcomes are supplied by an
  environment record, so theorems quantify over them.
* The cooperative stop flag `_is_running` is modelled by numbering every
  read of the flag in program order; a user stop request makes every
  read from a chosen read index on return `false`.
* The worker pool is modelled by its observable effects: the submission
  loop runs first and builds the task list (as in the source, where all
  submissions happen before `as_completed` is consulted), then the
  collection loop walks the futures in an arbitrary completion order.
-/

/-- Filenames and paths, as lists of characters. -/
abbrev FName := List Char

/-- ASCII decimal digit, as matched by `\d` for the filenames in scope. -/
def isDigitChar (c : Char) : Bool := decide ('0' ≤ c) && decide (c ≤ '9')

/-- ASCII word character, as matched by `\w` for the filenames in scope. -/
def isWordChar (c : Char) : Bool :=
  isDigitChar c || (decide ('a' ≤ c) && decide (c ≤ 'z')) ||
    (decide ('A' ≤ c) && decide (c ≤ 'Z')) || decide (c = '_')

/-- Value of one decimal digit character. -/
def digitVal (c : Char) : Nat := c.toNat - '0'.toNat

/-- Value of a digit string, most significant first (Python `int(...)`). -/
def digitsVal (ds : List Char) : Nat := ds.foldl (fun n c => n * 10 + digitVal c) 0

/-- `get_numeric_part` (processing_pipeline.py lines 109-112): searches the
filename with the regex `(\d+)\.\w+$` and returns the captured integer,
`none` when there is no match (the Python code returns `float('inf')`).
A match exists exactly when the part after the last dot is a nonempty run
of word characters and the part before that dot ends in at least one
digit; the captured group is that maximal trailing digit run. -/
def getNumericPart (f : FName) : Option Nat :=
  let r := f.reverse
  let ext := r.takeWhile (fun c => decide (c ≠ '.'))
  match r.dropWhile (fun c => decide (c ≠ '.')) with
  | [] => none
  | _ :: stemRev =>
    if ext.isEmpty then none
    else if ext.all isWordChar then
      let ds := stemRev.takeWhile isDigitChar
      if ds.isEmpty then none else some (digitsVal ds.reverse)
    else none

/-- ASCII lower-casing of one character (Python `str.lower`). -/
def lowerChar (c : Char) : Char :=
  if decide ('A' ≤ c) && decide (c ≤ 'Z') then Char.ofNat (c.toNat + 32) else c

/-- Accepted image extensions (processing_pipeline.py line 126). -/
def extOk (f : FName) : Bool :=
  let g := f.map lowerChar
  List.isSuffixOf ['.', 'p', 'n', 'g'] g ||
  List.isSuffixOf ['.', 'b', 'm', 'p'] g ||
  List.isSuffixOf ['.', 't', 'i', 'f'] g ||
  List.isSuffixOf ['.', 't', 'i', 'f', 'f'] g

/-- `os.path.join` for the simple relative-name case used by the pipeline. -/
def pathJoin (a b : FName) : FName := a ++ '/' :: b

/-- `os.path.basename`: the part after the last slash. -/
def basename (p : FName) : FName :=
  (p.reverse.takeWhile (fun c => decide (c ≠ '/'))).reverse

/-- Comparison of sort keys produced by `get_numeric_part`: numbers compare
as naturals and a missing match (`float('inf')` in the source) is greater
than every number. -/
def keyLE : Option Nat → Option Nat → Bool
  | none, none => true
  | none, some _ => false
  | some _, none => true
  | some a, some b => decide (a ≤ b)

/-- The sorting relation used by `sorted(..., key=get_numeric_part)`. -/
def keyRel (a b : FName) : Prop :=
  keyLE (getNumericPart a) (getNumericPart b) = true

instance : DecidableRel keyRel := fun a b =>
  inferInstanceAs (Decidable (keyLE (getNumericPart a) (getNumericPart b) = true))

theorem keyLE_total (x y : Option Nat) : keyLE x y = true ∨ keyLE y x = true := by
  cases x <;> cases y <;> simp [keyLE] <;> omega

theorem keyLE_trans {x y z : Option Nat} (h1 : keyLE x y = true)
    (h2 : keyLE y z = true) : keyLE x z = true := by
  cases x <;> cases y <;> cases z <;> simp_all [keyLE] <;> omega

instance : IsTotal FName keyRel := ⟨fun a b => keyLE_total _ _⟩

instance : IsTrans FName keyRel := ⟨fun _ _ _ h1 h2 => keyLE_trans h1 h2⟩

/-- `sorted(files, key=get_numeric_part)` (processing_pipeline.py 125-128):
a stable sort by the numeric key with non-matching names sorting last. -/
def sortByKey (files : List FName) : List FName := List.insertionSort keyRel files

/-- Start/stop index filtering (processing_pipeline.py 130-137).  A file is
kept unless `start_index` is set and its numeric part is below it, or
`stop_index` is set and its numeric part is above it; a file with no
numeric part acts as `float('inf')`. -/
def passesFilter (startIndex stopIndex : Option Nat) (k : Option Nat) : Bool :=
  (match startIndex, k with
   | some s, some n => decide (s ≤ n)
   | some _, none => true
   | none, _ => true) &&
  (match stopIndex, k with
   | some t, some n => decide (n ≤ t)
   | some _, none => false
   | none, _ => true)

/-- The scanning phase of `run` (lines 125-137): keep the image files,
sort them by embedded numeric index, then apply start/stop filtering. -/
def scanPhase (startIndex stopIndex : Option Nat) (listdir : List FName) :
    List FName :=
  (sortByKey (listdir.filter extOk)).filter
    (fun f => passesFilter startIndex stopIndex (getNumericPart f))

/-- One `append` on `collections.deque(maxlen := N)` (line 144/187): the new
element goes to the right and, if capacity is now exceeded, the oldest
(leftmost) entries beyond capacity are evicted. -/
def dequePush {α : Type _} (N : Nat) (c : List α) (m : α) : List α :=
  let c2 := c ++ [m]
  if N < c2.length then c2.drop (c2.length - N) else c2

theorem dequePush_eq_rtake {α : Type _} (N : Nat) (c : List α) (m : α) :
    dequePush N c m = (c ++ [m]).rtake N := by
  unfold dequePush List.rtake
  by_cases h : N < (c ++ [m]).length
  · rw [if_pos h]
  · rw [if_neg h]
    have h2 : (c ++ [m]).length - N = 0 := by
      simp only [List.length_append, List.length_cons, List.length_nil] at h ⊢
      omega
    rw [h2, List.drop_zero]

theorem rtake_append_absorb {α : Type _} (N : Nat) (l r : List α) :
    ((l.rtake N) ++ r).rtake N = (l ++ r).rtake N := by
  rw [List.rtake_eq_reverse_take_reverse, List.rtake_eq_reverse_take_reverse,
    List.rtake_eq_reverse_take_reverse]
  rw [List.reverse_append, List.reverse_append, List.reverse_reverse]
  congr 1
  rw [List.take_append_eq_append_take, List.take_append_eq_append_take,
    List.take_take]
  congr 2
  omega

theorem foldl_dequePush {α : Type _} (N : Nat) :
    ∀ (ms c : List α), c.length ≤ N →
      ms.foldl (dequePush N) c = (c ++ ms).rtake N := by
  intro ms
  induction ms with
  | nil =>
    intro c hc
    rw [List.foldl_nil, List.append_nil]
    unfold List.rtake
    rw [Nat.sub_eq_zero_of_le hc, List.drop_zero]
  | cons m ms ih =>
    intro c hc
    have hlen : (dequePush N c m).length ≤ N := by
      rw [dequePush_eq_rtake]
      unfold List.rtake
      rw [List.length_drop]
      omega
    calc (m :: ms).foldl (dequePush N) c
        = ms.foldl (dequePush N) (dequePush N c m) := rfl
      _ = ((dequePush N c m) ++ ms).rtake N := ih _ hlen
      _ = (((c ++ [m]).rtake N) ++ ms).rtake N := by rw [dequePush_eq_rtake]
      _ = ((c ++ [m]) ++ ms).rtake N := rtake_append_absorb N _ _
      _ = (c ++ m :: ms).rtake N := by simp

/-! ## The pipeline orchestrator (`ProcessingPipelineThread.run`) -/

/-- The slice of `Config` consumed by `run` that the claims depend on. -/
structure PipeConfig where
  inputModeUVTools : Bool
  inputFolder : FName
  outputFolder : FName
  startIndex : Option Nat
  stopIndex : Option Nat
  recedingLayers : Nat
deriving DecidableEq

/-- The `image_data` dictionary plus the history snapshot handed to
`_process_single_image_task` at `executor.submit` time (lines 169-184):
the layer's path, its thresholded mask, its original image and the
private copy `collections.deque(prior_binary_masks_cache)`. -/
structure LayerTask (Mask Img : Type _) where
  filepath : FName
  binaryImage : Mask
  originalImage : Img
  snapshot : List Mask
deriving DecidableEq

/-- Status messages emitted through `status_update` that the claims
observe (message text abbreviated to its identifying content). -/
inductive Msg where
  | processingStarted
  | analyzing (f : FName)
  | skippingUnloadable (f : FName)
  | stoppedByUser
  | completedCount (done : Nat)
  | allTasksCompleted
  | processingComplete
  | processingStoppedOrError
deriving DecidableEq

/-- Payloads emitted through `error_signal`. -/
inductive RunError (Err : Type _) where
  | noImagesFound
  | taskFailed (e : Err)
deriving DecidableEq

/-- The environment a run executes against: the directory listing, the
image loader (`core.load_image`, `none` = unreadable), each task's
eventual outcome keyed by its filename, the order in which
`concurrent.futures.as_completed` yields the futures, and the read
index from which the user's `stop_processing` makes the `_is_running`
flag read false (`none` = the user never stops the run). -/
structure PipeEnv (Mask Img Err : Type _) where
  listdir : List FName
  load : FName → Option (Mask × Img)
  outcome : FName → Except Err Img
  order : List FName
  stopAt : Option Nat
deriving Inhabited

/-- One read of the cooperative `_is_running` flag.  Reads are numbered in
program order; the flag is false once a task failure has set it false
(`failed`) or from the user's stop request (`stopAt`) on. -/
def flagRead (stopAt : Option Nat) (failed : Bool) (r : Nat) : Bool :=
  !failed && (match stopAt with
  | none => true
  | some s => decide (r < s))

/-- State of the submission loop (lines 150-187). -/
structure SubState (Mask Img : Type _) where
  reads : Nat
  cache : List Mask
  tasks : List (LayerTask Mask Img)
  msgs : List Msg
  stoppedObserved : Bool
deriving DecidableEq

/-- The submission loop (lines 150-187): for each remaining filename,
check the stop flag (break with a "stopped by user" status when false),
load the image (skip the file with a status message when unreadable),
submit a task carrying a private copy of the mask-history cache, and
only then push the new mask into the cache. -/
def submitLoop {Mask Img : Type _} (N : Nat) (load : FName → Option (Mask × Img))
    (inputPath : FName) (stopAt : Option Nat) :
    List FName → SubState Mask Img → SubState Mask Img
  | [], st => st
  | f :: fs, st =>
    if flagRead stopAt false st.reads then
      match load f with
      | none =>
        submitLoop N load inputPath stopAt fs
          { st with
            reads := st.reads + 1
            msgs := st.msgs ++ [Msg.analyzing f, Msg.skippingUnloadable f] }
      | some (bi, oi) =>
        submitLoop N load inputPath stopAt fs
          { st with
            reads := st.reads + 1
            msgs := st.msgs ++ [Msg.analyzing f]
            tasks := st.tasks ++ [⟨pathJoin inputPath f, bi, oi, st.cache⟩]
            cache := dequePush N st.cache bi }
    else
      { st with
        reads := st.reads + 1
        msgs := st.msgs ++ [Msg.stoppedByUser]
        stoppedObserved := true }

/-- Reference form of the submission loop with the stop flag never firing:
the tasks created for a file list, threading the mask-history cache. -/
def pureSubmit {Mask Img : Type _} (N : Nat) (load : FName → Option (Mask × Img))
    (inputPath : FName) : List FName → List Mask → List (LayerTask Mask Img)
  | [], _ => []
  | f :: fs, cache =>
    match load f with
    | none => pureSubmit N load inputPath fs cache
    | some (bi, oi) =>
      ⟨pathJoin inputPath f, bi, oi, cache⟩ ::
        pureSubmit N load inputPath fs (dequePush N cache bi)

/-- State of the result-collection loop (lines 189-204). -/
structure ColState (Err : Type _) where
  reads : Nat
  processedCount : Nat
  completedNames : List FName
  errors : List (RunError Err)
  msgs : List Msg
  failed : Bool
  cancelledAll : Bool
  stoppedObserved : Bool
deriving DecidableEq

/-- The collection loop (lines 189-204): walk the futures in completion
order; break when the stop flag reads false; count a success and report
progress; on the first failure report the error, clear `_is_running`,
call `cancel()` on every future and break. -/
def collectLoop {Img Err : Type _} (outcome : FName → Except Err Img)
    (stopAt : Option Nat) : List FName → ColState Err → ColState Err
  | [], st => st
  | n :: ns, st =>
    if flagRead stopAt st.failed st.reads then
      match outcome n with
      | Except.ok _ =>
        collectLoop outcome stopAt ns
          { st with
            reads := st.reads + 1
            processedCount := st.processedCount + 1
            completedNames := st.completedNames ++ [n]
            msgs := st.msgs ++ [Msg.completedCount (st.processedCount + 1)] }
      | Except.error e =>
        { st with
          reads := st.reads + 1
          errors := st.errors ++ [RunError.taskFailed e]
          failed := true
          cancelledAll := true }
    else
      { st with
        reads := st.reads + 1
        stoppedObserved := st.stoppedObserved || !st.failed }

/-- The observable result of one `run` invocation. -/
structure RunResult (Mask Img Err : Type _) where
  tasks : List (LayerTask Mask Img)
  msgs : List Msg
  errors : List (RunError Err)
  processedCount : Nat
  completedNames : List FName
  cancelledAll : Bool
  stoppedObserved : Bool
  repackRan : Bool
  finalMsgComplete : Bool
deriving DecidableEq

/-- The final state of the submission loop of one run (lines 150-187),
started on the scanned file list with an empty cache. -/
def runSub {Mask Img Err : Type _} (cfg : PipeConfig)
    (env : PipeEnv Mask Img Err) : SubState Mask Img :=
  submitLoop cfg.recedingLayers env.load cfg.inputFolder env.stopAt
    (scanPhase cfg.startIndex cfg.stopIndex env.listdir)
    { reads := 0, cache := [], tasks := [], msgs := [Msg.processingStarted],
      stoppedObserved := false }

/-- The final state of the collection loop of one run (lines 189-204),
continuing the flag-read numbering where the submission loop stopped. -/
def runCol {Mask Img Err : Type _} (cfg : PipeConfig)
    (env : PipeEnv Mask Img Err) : ColState Err :=
  collectLoop env.outcome env.stopAt env.order
    { reads := (runSub cfg env).reads, processedCount := 0,
      completedNames := [], errors := [], msgs := [], failed := false,
      cancelledAll := false, stoppedObserved := false }

/-- The `_is_running` read guarding the repack call (line 208). -/
def runFlagRepack {Mask Img Err : Type _} (cfg : PipeConfig)
    (env : PipeEnv Mask Img Err) : Bool :=
  flagRead env.stopAt (runCol cfg env : ColState Err).failed
    (runCol cfg env : ColState Err).reads

/-- Read counter after the (uvtools-only, short-circuited) repack check. -/
def runReadsFinal {Mask Img Err : Type _} (cfg : PipeConfig)
    (env : PipeEnv Mask Img Err) : Nat :=
  if cfg.inputModeUVTools then (runCol cfg env : ColState Err).reads + 1
  else (runCol cfg env : ColState Err).reads

/-- The `_is_running` read selecting the closing status message (line 225). -/
def runFlagFinal {Mask Img Err : Type _} (cfg : PipeConfig)
    (env : PipeEnv Mask Img Err) : Bool :=
  flagRead env.stopAt (runCol cfg env : ColState Err).failed
    (runReadsFinal cfg env)

/-- `ProcessingPipelineThread.run` (lines 103-229).  Scan and filter the
input directory; report "no images" and return early when nothing is
left; otherwise run the submission loop, then the collection loop over
the futures in completion order, then trigger the repack collaborator
exactly when the input mode is uvtools and `_is_running` still reads
true, and finally report the closing status.  UVTools extraction is
modelled as already reflected in `listdir`, and repack as succeeding.
`stoppedObserved` records whether any work-aborting read of the flag
(submission check, collection check, repack check) saw a user stop. -/
def run {Mask Img Err : Type _} (cfg : PipeConfig) (env : PipeEnv Mask Img Err) :
    RunResult Mask Img Err :=
  if (scanPhase cfg.startIndex cfg.stopIndex env.listdir).isEmpty then
    { tasks := []
      msgs := [Msg.processingStarted,
        if flagRead env.stopAt false 0 then Msg.processingComplete
        else Msg.processingStoppedOrError]
      errors := [RunError.noImagesFound]
      processedCount := 0
      completedNames := []
      cancelledAll := false
      stoppedObserved := false
      repackRan := false
      finalMsgComplete := flagRead env.stopAt false 0 }
  else
    { tasks := (runSub cfg env).tasks
      msgs := (runSub cfg env).msgs ++ (runCol cfg env : ColState Err).msgs ++
        [Msg.allTasksCompleted,
          if runFlagFinal cfg env then Msg.processingComplete
          else Msg.processingStoppedOrError]
      errors := (runCol cfg env : ColState Err).errors
      processedCount := (runCol cfg env : ColState Err).processedCount
      completedNames := (runCol cfg env : ColState Err).completedNames
      cancelledAll := (runCol cfg env : ColState Err).cancelledAll
      stoppedObserved := (runSub cfg env).stoppedObserved ||
        (runCol cfg env : ColState Err).stoppedObserved ||
        (cfg.inputModeUVTools &&
          (!(runCol cfg env : ColState Err).failed && !runFlagRepack cfg env))
      repackRan := cfg.inputModeUVTools && runFlagRepack cfg env
      finalMsgComplete := runFlagFinal cfg env }

/-! ## The per-layer worker (`_process_single_image_task`) -/

/-- The collaborator functions `_process_single_image_task` calls
(`core.find_prior_combined_white_mask`, `core.process_z_blending`,
`core.merge_to_output`, `xy_blend_processor.process_xy_pipeline`),
abstracted with the configuration and ROI arguments folded in. -/
structure CoreFns (Mask Img : Type _) where
  findPriorCombinedWhiteMask : List Mask → Mask
  processZBlending : Mask → Mask → Img
  mergeToOutput : Img → Img → Img
  processXYPipeline : Img → Img

/-- `_process_single_image_task` (lines 70-101), observed through the
`cv2.imwrite` calls it performs: combine the snapshot, blend, merge,
run the XY chain, and write exactly one file named
`os.path.join(output_folder, os.path.basename(filepath))`. -/
def processSingleImageTask {Mask Img : Type _} (core : CoreFns Mask Img)
    (t : LayerTask Mask Img) (outputFolder : FName) : List (FName × Img) :=
  let priorWhiteCombined := core.findPriorCombinedWhiteMask t.snapshot
  let recedingGradient := core.processZBlending t.binaryImage priorWhiteCombined
  let outputFromCore := core.mergeToOutput t.originalImage recedingGradient
  let finalProcessed := core.processXYPipeline outputFromCore
  [(pathJoin outputFolder (basename t.filepath), finalProcessed)]

/-- The paths written by one worker invocation. -/
def writtenPaths {Mask Img : Type _} (core : CoreFns Mask Img)
    (t : LayerTask Mask Img) (outputFolder : FName) : List FName :=
  (processSingleImageTask core t outputFolder).map Prod.fst

/-! ## The slice-editor project (`project.py`) -/

/-- The per-layer edit dictionary `Project.edits`
(`{layer_index: [EditCommand, ...]}`), as an insertion-ordered
association list, matching Python dict semantics. -/
abbrev EditDict (C : Type _) := List (Nat × List C)

/-- Lookup `self.edits[layer_index]`, with the absent key reading as `[]`
(the code materialises `[]` before using a missing key). -/
def editsGet {C : Type _} (d : EditDict C) (l : Nat) : List C :=
  match d.find? (fun p => decide (p.1 = l)) with
  | some p => p.2
  | none => []

/-- `self.edits[l].append(c)`, creating the key at the end of the dict when
absent (`if layer_index not in self.edits: self.edits[layer_index] = []`). -/
def dictAppend {C : Type _} : EditDict C → Nat → C → EditDict C
  | [], l, c => [(l, [c])]
  | (k, v) :: rest, l, c =>
    if k = l then (k, v ++ [c]) :: rest else (k, v) :: dictAppend rest l c

/-- `_find_and_remove_command` (project.py lines 49-57): remove the first
occurrence (by equality) of the command from its layer's list; missing
key or missing command is silently ignored. -/
def dictRemoveFirst {C : Type _} [DecidableEq C] :
    EditDict C → Nat → C → EditDict C
  | [], _, _ => []
  | (k, v) :: rest, l, c =>
    if k = l then (k, v.erase c) :: rest else (k, v) :: dictRemoveFirst rest l c

/-- `Project` (project.py lines 20-31): the per-layer edits and the
undo/redo stacks.  Commands are an abstract type `C`; the
`get_affected_layer` method is the function `layerOf` passed to the
operations. -/
structure Project (C : Type _) where
  edits : EditDict C
  undoStack : List C
  redoStack : List C
deriving DecidableEq

/-- `Project.add_edit` (lines 38-47): append the command to its layer's
list and to the undo stack, and clear the redo stack. -/
def addEdit {C : Type _} (layerOf : C → Nat) (p : Project C) (c : C) :
    Project C :=
  { edits := dictAppend p.edits (layerOf c) c
    undoStack := p.undoStack ++ [c]
    redoStack := [] }

/-- `Project.perform_undo` (lines 59-69): pop the last command off the
undo stack, remove it from its layer's edit list, push it onto the redo
stack; on an empty undo stack return `None` and change nothing. -/
def performUndo {C : Type _} [DecidableEq C] (layerOf : C → Nat)
    (p : Project C) : Option C × Project C :=
  match p.undoStack.getLast? with
  | none => (none, p)
  | some c =>
    (some c,
      { edits := dictRemoveFirst p.edits (layerOf c) c
        undoStack := p.undoStack.dropLast
        redoStack := p.redoStack ++ [c] })

/-- `Project.perform_redo` (lines 71-87): pop the last command off the
redo stack, re-append it to its layer's edit list, push it back onto the
undo stack; on an empty redo stack return `None` and change nothing. -/
def performRedo {C : Type _} [DecidableEq C] (layerOf : C → Nat)
    (p : Project C) : Option C × Project C :=
  match p.redoStack.getLast? with
  | none => (none, p)
  | some c =>
    (some c,
      { edits := dictAppend p.edits (layerOf c) c
        undoStack := p.undoStack ++ [c]
        redoStack := p.redoStack.dropLast })

/-- The state invariant connecting the undo stack to the edit lists: each
command value occurs in the undo stack at most as often as in its
layer's edit list.  It holds in every reachable project state. -/
def undoCountInv {C : Type _} [DecidableEq C] (layerOf : C → Nat)
    (p : Project C) : Prop :=
  ∀ c : C, p.undoStack.count c ≤ (editsGet p.edits (layerOf c)).count c

/-! ## Supporting lemmas about the stop flag and the two loops -/

theorem flagRead_none_false (r : Nat) : flagRead none false r = true := rfl

theorem flagRead_of_failed (sa : Option Nat) (r : Nat) :
    flagRead sa true r = false := rfl

theorem flagRead_some_of_lt {s r : Nat} (h : r < s) :
    flagRead (some s) false r = true := by
  simp [flagRead, h]

theorem flagRead_some_of_ge {s r : Nat} (h : s ≤ r) (b : Bool) :
    flagRead (some s) b r = false := by
  simp [flagRead]
  omega

theorem flagRead_false_mono {sa : Option Nat} {b : Bool} {r r' : Nat}
    (hrr : r ≤ r') (h : flagRead sa b r = false) : flagRead sa b r' = false := by
  cases b
  · cases sa with
    | none => exact absurd h (by simp [flagRead])
    | some s =>
      have hs : s ≤ r := by
        by_contra hc
        rw [flagRead_some_of_lt (by omega)] at h
        exact Bool.noConfusion h
      exact flagRead_some_of_ge (by omega) _
  · rfl

theorem submitLoop_tasks_extend {Mask Img : Type _} (N : Nat)
    (load : FName → Option (Mask × Img)) (p : FName) (sa : Option Nat) :
    ∀ (fs : List FName) (st : SubState Mask Img), ∃ new,
      (submitLoop N load p sa fs st).tasks = st.tasks ++ new := by
  intro fs
  induction fs with
  | nil => exact fun st => ⟨[], by simp [submitLoop]⟩
  | cons f fs ih =>
    intro st
    by_cases h : flagRead sa false st.reads
    · cases hl : load f with
      | none =>
        obtain ⟨new, hnew⟩ := ih
          { st with
            reads := st.reads + 1
            msgs := st.msgs ++ [Msg.analyzing f, Msg.skippingUnloadable f] }
        exact ⟨new, by simp only [submitLoop, if_pos h, hl]; exact hnew⟩
      | some pr =>
        obtain ⟨bi, oi⟩ := pr
        obtain ⟨new, hnew⟩ := ih
          { st with
            reads := st.reads + 1
            msgs := st.msgs ++ [Msg.analyzing f]
            tasks := st.tasks ++ [⟨pathJoin p f, bi, oi, st.cache⟩]
            cache := dequePush N st.cache bi }
        refine ⟨⟨pathJoin p f, bi, oi, st.cache⟩ :: new, ?_⟩
        simp only [submitLoop, if_pos h, hl]
        rw [hnew]
        simp
    · exact ⟨[], by simp [submitLoop, if_neg h]⟩

theorem submitLoop_msgs_extend {Mask Img : Type _} (N : Nat)
    (load : FName → Option (Mask × Img)) (p : FName) (sa : Option Nat) :
    ∀ (fs : List FName) (st : SubState Mask Img), ∃ new,
      (submitLoop N load p sa fs st).msgs = st.msgs ++ new := by
  intro fs
  induction fs with
  | nil => exact fun st => ⟨[], by simp [submitLoop]⟩
  | cons f fs ih =>
    intro st
    by_cases h : flagRead sa false st.reads
    · cases hl : load f with
      | none =>
        obtain ⟨new, hnew⟩ := ih
          { st with
            reads := st.reads + 1
            msgs := st.msgs ++ [Msg.analyzing f, Msg.skippingUnloadable f] }
        refine ⟨[Msg.analyzing f, Msg.skippingUnloadable f] ++ new, ?_⟩
        simp only [submitLoop, if_pos h, hl]
        rw [hnew]
        simp
      | some pr =>
        obtain ⟨bi, oi⟩ := pr
        obtain ⟨new, hnew⟩ := ih
          { st with
            reads := st.reads + 1
            msgs := st.msgs ++ [Msg.analyzing f]
            tasks := st.tasks ++ [⟨pathJoin p f, bi, oi, st.cache⟩]
            cache := dequePush N st.cache bi }
        refine ⟨[Msg.analyzing f] ++ new, ?_⟩
        simp only [submitLoop, if_pos h, hl]
        rw [hnew]
        simp
    · exact ⟨[Msg.stoppedByUser], by simp only [submitLoop, if_neg h]⟩

theorem submitLoop_none_tasks {Mask Img : Type _} (N : Nat)
    (load : FName → Option (Mask × Img)) (p : FName) :
    ∀ (fs : List FName) (st : SubState Mask Img),
      (submitLoop N load p none fs st).tasks =
        st.tasks ++ pureSubmit N load p fs st.cache := by
  intro fs
  induction fs with
  | nil => intro st; simp [submitLoop, pureSubmit]
  | cons f fs ih =>
    intro st
    simp only [submitLoop, pureSubmit, flagRead_none_false, if_pos]
    cases hl : load f with
    | none => rw [ih]
    | some pr =>
      obtain ⟨bi, oi⟩ := pr
      rw [ih]
      simp

theorem submitLoop_none_stoppedObserved {Mask Img : Type _} (N : Nat)
    (load : FName → Option (Mask × Img)) (p : FName) :
    ∀ (fs : List FName) (st : SubState Mask Img),
      (submitLoop N load p none fs st).stoppedObserved = st.stoppedObserved := by
  intro fs
  induction fs with
  | nil => intro st; simp [submitLoop]
  | cons f fs ih =>
    intro st
    simp only [submitLoop, flagRead_none_false, if_pos]
    cases hl : load f with
    | none => rw [ih]
    | some pr =>
      obtain ⟨bi, oi⟩ := pr
      rw [ih]

theorem submitLoop_none_skipMsg {Mask Img : Type _} (N : Nat)
    (load : FName → Option (Mask × Img)) (p : FName) :
    ∀ (fs : List FName) (st : SubState Mask Img) (f : FName), f ∈ fs →
      load f = none →
      Msg.skippingUnloadable f ∈ (submitLoop N load p none fs st).msgs := by
  intro fs
  induction fs with
  | nil => intro st f hf; exact absurd hf (List.not_mem_nil f)
  | cons g fs ih =>
    intro st f hf hload
    rcases List.mem_cons.mp hf with hfg | hmem
    · subst hfg
      simp only [submitLoop, flagRead_none_false, if_pos, hload]
      obtain ⟨new, hnew⟩ := submitLoop_msgs_extend N load p none fs
        { st with
          reads := st.reads + 1
          msgs := st.msgs ++ [Msg.analyzing f, Msg.skippingUnloadable f] }
      rw [hnew]
      simp
    · simp only [submitLoop, flagRead_none_false, if_pos]
      cases hl : load g with
      | none => exact ih _ f hmem hload
      | some pr =>
        obtain ⟨bi, oi⟩ := pr
        exact ih _ f hmem hload

theorem pureSubmit_map_filepath {Mask Img : Type _} (N : Nat)
    (load : FName → Option (Mask × Img)) (p : FName) :
    ∀ (fs : List FName) (cache : List Mask),
      (pureSubmit N load p fs cache).map (fun t => t.filepath) =
        (fs.filter (fun f => (load f).isSome)).map (pathJoin p) := by
  intro fs
  induction fs with
  | nil => intro cache; simp [pureSubmit]
  | cons f fs ih =>
    intro cache
    simp only [pureSubmit, List.filter_cons]
    cases hl : load f with
    | none => simpa using ih cache
    | some pr =>
      obtain ⟨bi, oi⟩ := pr
      simpa using ih (dequePush N cache bi)

theorem submitLoop_some_tasks {Mask Img : Type _} (N : Nat)
    (load : FName → Option (Mask × Img)) (p : FName) (s : Nat) :
    ∀ (fs : List FName) (st : SubState Mask Img), st.reads ≤ s →
      (submitLoop N load p (some s) fs st).tasks =
        st.tasks ++ pureSubmit N load p (fs.take (s - st.reads)) st.cache := by
  intro fs
  induction fs with
  | nil => intro st _; simp [submitLoop, pureSubmit]
  | cons f fs ih =>
    intro st hreads
    rcases Nat.lt_or_ge st.reads s with hlt | hge
    · have hflag : flagRead (some s) false st.reads = true := flagRead_some_of_lt hlt
      have htake : s - st.reads = (s - (st.reads + 1)) + 1 := by omega
      simp only [submitLoop, hflag, if_pos, htake, List.take_succ_cons, pureSubmit]
      cases hl : load f with
      | none => rw [ih _ (show st.reads + 1 ≤ s by omega)]
      | some pr =>
        obtain ⟨bi, oi⟩ := pr
        rw [ih _ (show st.reads + 1 ≤ s by omega)]
        simp
    · have hse : s - st.reads = 0 := by omega
      have hflag : flagRead (some s) false st.reads = false :=
        flagRead_some_of_ge (by omega) _
      simp [submitLoop, hflag, hse, pureSubmit]

theorem submitLoop_some_break {Mask Img : Type _} (N : Nat)
    (load : FName → Option (Mask × Img)) (p : FName) (s : Nat) :
    ∀ (fs : List FName) (st : SubState Mask Img), st.reads ≤ s →
      s - st.reads < fs.length →
      (submitLoop N load p (some s) fs st).stoppedObserved = true ∧
      Msg.stoppedByUser ∈ (submitLoop N load p (some s) fs st).msgs ∧
      (submitLoop N load p (some s) fs st).reads = s + 1 := by
  intro fs
  induction fs with
  | nil => intro st _ hlen; exact absurd hlen (by simp)
  | cons f fs ih =>
    intro st hreads hlen
    rcases Nat.lt_or_ge st.reads s with hlt | hge
    · have hflag : flagRead (some s) false st.reads = true := flagRead_some_of_lt hlt
      simp only [submitLoop, hflag, if_pos]
      cases hl : load f with
      | none =>
        exact ih _ (show st.reads + 1 ≤ s by omega)
          (show s - (st.reads + 1) < fs.length by simp at hlen; omega)
      | some pr =>
        obtain ⟨bi, oi⟩ := pr
        exact ih _ (show st.reads + 1 ≤ s by omega)
          (show s - (st.reads + 1) < fs.length by simp at hlen; omega)
    · have hse : s = st.reads := by omega
      have hflag : flagRead (some s) false st.reads = false :=
        flagRead_some_of_ge (by omega) _
      simp [submitLoop, hflag]
      omega

/-- Snapshot invariant: every task in the list was handed the last
`N` masks of the tasks submitted strictly before it. -/
def snapInv {Mask Img : Type _} (N : Nat) (tasks : List (LayerTask Mask Img)) :
    Prop :=
  ∀ (j : Nat) (t : LayerTask Mask Img), tasks[j]? = some t →
    t.snapshot = ((tasks.take j).map (fun u => u.binaryImage)).rtake N

theorem snapInv_nil {Mask Img : Type _} (N : Nat) :
    snapInv N ([] : List (LayerTask Mask Img)) := by
  intro j t hjt
  simp at hjt

theorem snapInv_append {Mask Img : Type _} (N : Nat)
    (ts : List (LayerTask Mask Img)) (t : LayerTask Mask Img)
    (hts : snapInv N ts)
    (ht : t.snapshot = (ts.map (fun u => u.binaryImage)).rtake N) :
    snapInv N (ts ++ [t]) := by
  intro j u hju
  rcases Nat.lt_trichotomy j ts.length with hj | hj | hj
  · rw [List.getElem?_append_left hj] at hju
    have htake : (ts ++ [t]).take j = ts.take j := by
      rw [List.take_append_eq_append_take]
      have : j - ts.length = 0 := by omega
      simp [this]
    rw [htake]
    exact hts j u hju
  · rw [List.getElem?_append_right (by omega)] at hju
    rw [hj] at hju
    simp at hju
    have htake : (ts ++ [t]).take j = ts := by
      rw [List.take_append_eq_append_take]
      have h0 : j - ts.length = 0 := by omega
      have h1 : ts.take j = ts := List.take_of_length_le (by omega)
      simp [h0, h1]
    rw [htake, ← hju]
    exact ht
  · rw [List.getElem?_append_right (by omega)] at hju
    have : (j - ts.length) ≥ 1 := by omega
    rw [List.getElem?_eq_none (by simp; omega)] at hju
    exact Option.noConfusion hju

theorem submitLoop_snapInv {Mask Img : Type _} (N : Nat)
    (load : FName → Option (Mask × Img)) (p : FName) (sa : Option Nat) :
    ∀ (fs : List FName) (st : SubState Mask Img),
      snapInv N st.tasks →
      st.cache = (st.tasks.map (fun u => u.binaryImage)).rtake N →
      snapInv N (submitLoop N load p sa fs st).tasks := by
  intro fs
  induction fs with
  | nil =>
    intro st hinv hcache
    simpa [submitLoop] using hinv
  | cons f fs ih =>
    intro st hinv hcache
    by_cases h : flagRead sa false st.reads
    · cases hl : load f with
      | none =>
        simp only [submitLoop, if_pos h, hl]
        exact ih _ hinv hcache
      | some pr =>
        obtain ⟨bi, oi⟩ := pr
        simp only [submitLoop, if_pos h, hl]
        refine ih
          { st with
            reads := st.reads + 1
            msgs := st.msgs ++ [Msg.analyzing f]
            tasks := st.tasks ++ [⟨pathJoin p f, bi, oi, st.cache⟩]
            cache := dequePush N st.cache bi } ?_ ?_
        · exact snapInv_append N st.tasks ⟨pathJoin p f, bi, oi, st.cache⟩ hinv hcache
        · show dequePush N st.cache bi =
            (((st.tasks ++ [(⟨pathJoin p f, bi, oi, st.cache⟩ : LayerTask Mask Img)]).map
              (fun u : LayerTask Mask Img => u.binaryImage)).rtake N)
          rw [dequePush_eq_rtake, hcache, List.map_append]
          exact rtake_append_absorb N _ _
    · simp only [submitLoop, if_neg h]
      exact hinv

theorem collectLoop_reads_mono {Img Err : Type _} (o : FName → Except Err Img)
    (sa : Option Nat) :
    ∀ (ns : List FName) (st : ColState Err),
      st.reads ≤ (collectLoop o sa ns st).reads := by
  intro ns
  induction ns with
  | nil => intro st; simp [collectLoop]
  | cons n ns ih =>
    intro st
    by_cases h : flagRead sa st.failed st.reads
    · cases ho : o n with
      | ok i =>
        simp only [collectLoop, if_pos h, ho]
        refine le_trans (Nat.le_succ st.reads) (ih
          { st with
            reads := st.reads + 1
            processedCount := st.processedCount + 1
            completedNames := st.completedNames ++ [n]
            msgs := st.msgs ++ [Msg.completedCount (st.processedCount + 1)] })
      | error e =>
        simp only [collectLoop, if_pos h, ho]
        omega
    · simp only [collectLoop, if_neg h]
      omega

theorem collectLoop_errors_extend {Img Err : Type _} (o : FName → Except Err Img)
    (sa : Option Nat) :
    ∀ (ns : List FName) (st : ColState Err), ∃ d,
      (collectLoop o sa ns st).errors = st.errors ++ d := by
  intro ns
  induction ns with
  | nil => intro st; exact ⟨[], by simp [collectLoop]⟩
  | cons n ns ih =>
    intro st
    by_cases h : flagRead sa st.failed st.reads
    · cases ho : o n with
      | ok i =>
        obtain ⟨d, hd⟩ := ih
          { st with
            reads := st.reads + 1
            processedCount := st.processedCount + 1
            completedNames := st.completedNames ++ [n]
            msgs := st.msgs ++ [Msg.completedCount (st.processedCount + 1)] }
        exact ⟨d, by simp only [collectLoop, if_pos h, ho]; exact hd⟩
      | error e =>
        exact ⟨[RunError.taskFailed e], by simp only [collectLoop, if_pos h, ho]⟩
    · exact ⟨[], by simp [collectLoop, if_neg h]⟩

theorem collectLoop_not_failed {Img Err : Type _} (o : FName → Except Err Img)
    (sa : Option Nat) :
    ∀ (ns : List FName) (st : ColState Err), st.failed = false →
      (collectLoop o sa ns st).errors = st.errors →
      (collectLoop o sa ns st).failed = false := by
  intro ns
  induction ns with
  | nil => intro st hf _; simpa [collectLoop] using hf
  | cons n ns ih =>
    intro st hf herr
    by_cases h : flagRead sa st.failed st.reads
    · cases ho : o n with
      | ok i =>
        simp only [collectLoop, if_pos h, ho] at herr ⊢
        exact ih _ hf herr
      | error e =>
        simp only [collectLoop, if_pos h, ho] at herr ⊢
        have := congrArg List.length herr
        simp at this
    · simp only [collectLoop, if_neg h]
      exact hf

/-- C2 core: with no user stop, walking futures whose results are all
successes up to the first failure reports exactly that failure, counts
exactly the preceding successes, and cancels all futures. -/
theorem collectLoop_first_failure {Img Err : Type _}
    (o : FName → Except Err Img) (nf : FName) (e : Err)
    (hf : o nf = Except.error e) :
    ∀ (pre post : List FName) (st : ColState Err), st.failed = false →
      (∀ n ∈ pre, ∃ i, o n = Except.ok i) →
      (collectLoop o none (pre ++ nf :: post) st).errors =
          st.errors ++ [RunError.taskFailed e] ∧
      (collectLoop o none (pre ++ nf :: post) st).processedCount =
          st.processedCount + pre.length ∧
      (collectLoop o none (pre ++ nf :: post) st).completedNames =
          st.completedNames ++ pre ∧
      (collectLoop o none (pre ++ nf :: post) st).cancelledAll = true ∧
      (collectLoop o none (pre ++ nf :: post) st).failed = true ∧
      (collectLoop o none (pre ++ nf :: post) st).stoppedObserved =
          st.stoppedObserved := by
  intro pre
  induction pre with
  | nil =>
    intro post st hfail _
    have h : flagRead none st.failed st.reads = true := by
      rw [hfail]; rfl
    simp only [List.nil_append, collectLoop, if_pos h, hf]
    simp
  | cons n pre ih =>
    intro post st hfail hpre
    have h : flagRead none st.failed st.reads = true := by
      rw [hfail]; rfl
    obtain ⟨i, hi⟩ := hpre n (List.mem_cons_self n pre)
    simp only [List.cons_append, collectLoop, if_pos h, hi]
    have := ih post
      { st with
        reads := st.reads + 1
        processedCount := st.processedCount + 1
        completedNames := st.completedNames ++ [n]
        msgs := st.msgs ++ [Msg.completedCount (st.processedCount + 1)] }
      hfail (fun m hm => hpre m (List.mem_cons_of_mem n hm))
    obtain ⟨h1, h2, h3, h4, h5, h6⟩ := this
    refine ⟨h1, ?_, ?_, h4, h5, h6⟩
    · exact h2.trans (show st.processedCount + 1 + pre.length =
        st.processedCount + (n :: pre).length by simp; omega)
    · exact h3.trans (show (st.completedNames ++ [n]) ++ pre =
        st.completedNames ++ n :: pre by simp)

/-- Walking futures whose results are all successes (no stop, no failure)
reports no error and counts every future. -/
theorem collectLoop_all_ok {Img Err : Type _} (o : FName → Except Err Img) :
    ∀ (ns : List FName) (st : ColState Err), st.failed = false →
      (∀ n ∈ ns, ∃ i, o n = Except.ok i) →
      (collectLoop o none ns st).errors = st.errors ∧
      (collectLoop o none ns st).processedCount =
          st.processedCount + ns.length ∧
      (collectLoop o none ns st).completedNames = st.completedNames ++ ns ∧
      (collectLoop o none ns st).failed = false ∧
      (collectLoop o none ns st).cancelledAll = st.cancelledAll ∧
      (collectLoop o none ns st).stoppedObserved = st.stoppedObserved := by
  intro ns
  induction ns with
  | nil => intro st hfail _; simp [collectLoop, hfail]
  | cons n ns ih =>
    intro st hfail hok
    have h : flagRead none st.failed st.reads = true := by
      rw [hfail]; rfl
    obtain ⟨i, hi⟩ := hok n (List.mem_cons_self n ns)
    simp only [collectLoop, if_pos h, hi]
    have := ih
      { st with
        reads := st.reads + 1
        processedCount := st.processedCount + 1
        completedNames := st.completedNames ++ [n]
        msgs := st.msgs ++ [Msg.completedCount (st.processedCount + 1)] }
      hfail (fun m hm => hok m (List.mem_cons_of_mem n hm))
    obtain ⟨h1, h2, h3, h4, h5, h6⟩ := this
    refine ⟨h1, ?_, ?_, h4, h5, h6⟩
    · exact h2.trans (show st.processedCount + 1 + ns.length =
        st.processedCount + (n :: ns).length by simp; omega)
    · exact h3.trans (show (st.completedNames ++ [n]) ++ ns =
        st.completedNames ++ n :: ns by simp)

/-- When the stop flag already reads false at entry, the collection loop
changes none of the observable counters. -/
theorem collectLoop_flag_false {Img Err : Type _} (o : FName → Except Err Img)
    (sa : Option Nat) (ns : List FName) (st : ColState Err)
    (h : flagRead sa st.failed st.reads = false) :
    (collectLoop o sa ns st).errors = st.errors ∧
    (collectLoop o sa ns st).processedCount = st.processedCount ∧
    (collectLoop o sa ns st).completedNames = st.completedNames ∧
    (collectLoop o sa ns st).cancelledAll = st.cancelledAll ∧
    (collectLoop o sa ns st).failed = st.failed := by
  cases ns with
  | nil => simp [collectLoop]
  | cons n ns =>
    simp only [collectLoop, h]
    simp

/-- If the submission loop ever observed the stop flag false, the flag
still reads false at the loop's final read counter. -/
theorem submitLoop_stopObs_flag {Mask Img : Type _} (N : Nat)
    (load : FName → Option (Mask × Img)) (p : FName) (sa : Option Nat) :
    ∀ (fs : List FName) (st : SubState Mask Img),
      (st.stoppedObserved = true → flagRead sa false st.reads = false) →
      ((submitLoop N load p sa fs st).stoppedObserved = true →
        flagRead sa false (submitLoop N load p sa fs st).reads = false) := by
  intro fs
  induction fs with
  | nil => intro st hst; simpa [submitLoop] using hst
  | cons f fs ih =>
    intro st hst
    by_cases h : flagRead sa false st.reads
    · have hst2 : st.stoppedObserved = true → False := fun hso => by
        rw [hst hso] at h; exact Bool.noConfusion h
      cases hl : load f with
      | none =>
        simp only [submitLoop, if_pos h, hl]
        refine ih _ ?_
        intro hso
        exact absurd hso (fun hso => hst2 hso)
      | some pr =>
        obtain ⟨bi, oi⟩ := pr
        simp only [submitLoop, if_pos h, hl]
        refine ih _ ?_
        intro hso
        exact absurd hso (fun hso => hst2 hso)
    · have hfalse : flagRead sa false st.reads = false := by
        cases hv : flagRead sa false st.reads
        · rfl
        · exact absurd hv h
      simp only [submitLoop, if_neg h]
      intro _
      exact flagRead_false_mono (Nat.le_succ st.reads) hfalse

/-- If the collection loop ever observed the stop flag false (or entered
with that observation), the flag still reads false at its final state. -/
theorem collectLoop_stopObs_flag {Img Err : Type _} (o : FName → Except Err Img)
    (sa : Option Nat) :
    ∀ (ns : List FName) (st : ColState Err),
      (st.stoppedObserved = true → flagRead sa st.failed st.reads = false) →
      ((collectLoop o sa ns st).stoppedObserved = true →
        flagRead sa (collectLoop o sa ns st).failed
          (collectLoop o sa ns st).reads = false) := by
  intro ns
  induction ns with
  | nil => intro st hst; simpa [collectLoop] using hst
  | cons n ns ih =>
    intro st hst
    by_cases h : flagRead sa st.failed st.reads
    · have hst2 : st.stoppedObserved = true → False := fun hso => by
        rw [hst hso] at h; exact Bool.noConfusion h
      cases ho : o n with
      | ok i =>
        simp only [collectLoop, if_pos h, ho]
        refine ih _ ?_
        intro hso
        exact absurd hso (fun hso => hst2 hso)
      | error e =>
        simp only [collectLoop, if_pos h, ho]
        intro _
        rfl
    · have hfalse : flagRead sa st.failed st.reads = false := by
        cases hv : flagRead sa st.failed st.reads
        · rfl
        · exact absurd hv h
      simp only [collectLoop, if_neg h]
      intro _
      exact flagRead_false_mono (Nat.le_succ st.reads) hfalse

/-- The collection loop never resets a failure. -/
theorem collectLoop_failed_mono {Img Err : Type _} (o : FName → Except Err Img)
    (sa : Option Nat) :
    ∀ (ns : List FName) (st : ColState Err), st.failed = true →
      (collectLoop o sa ns st).failed = true := by
  intro ns
  induction ns with
  | nil => intro st h; simpa [collectLoop] using h
  | cons n ns ih =>
    intro st h
    by_cases hf : flagRead sa st.failed st.reads
    · cases ho : o n with
      | ok i =>
        simp only [collectLoop, if_pos hf, ho]
        exact ih _ h
      | error e =>
        simp only [collectLoop, if_pos hf, ho]
    · simp only [collectLoop, if_neg hf]
      exact h

/-! ## Claim theorems -/

/-- C3: for every sequence of pushes into a mask-history cache of capacity
`N`, the number of masks held after `k` pushes equals `min k N`, eviction
is oldest-first (the cache holds exactly the last `min k N` pushed masks
in push order, i.e. the final segment of the push sequence), and with
capacity `N = 0` the cache is always empty. -/
theorem mask_history_window {α : Type _} (N : Nat) (ms : List α) :
    ms.foldl (dequePush N) [] = ms.rtake N
    ∧ ms.foldl (dequePush N) [] = ms.drop (ms.length - N)
    ∧ (ms.foldl (dequePush N) []).length = min ms.length N
    ∧ (N = 0 → ms.foldl (dequePush N) [] = []) := by
  have h1 : ms.foldl (dequePush N) [] = ms.rtake N := by
    have := foldl_dequePush N ms [] (by simp)
    simpa using this
  refine ⟨h1, ?_, ?_, ?_⟩
  · rw [h1]; rfl
  · rw [h1]
    unfold List.rtake
    rw [List.length_drop]
    omega
  · intro h0
    rw [h1, h0]
    simp

/-- Witness for C3 at capacity 0 and three pushes. -/
theorem mask_history_window_witness :
    ([10, 20, 30] : List Nat).foldl (dequePush 0) [] = [] :=
  (mask_history_window 0 [10, 20, 30]).2.2.2 rfl

/-- A 0-30 indexed layer sequence. -/
def layerName (k : Nat) : FName :=
  ['l', 'a', 'y', 'e', 'r', '_'] ++ Nat.toDigits 10 k ++ ['.', 'p', 'n', 'g']

def seqFiles31 : List FName := (List.range 31).map layerName

/-- C5: start/stop filtering is inclusive on both ends: with both bounds
configured, the scanning phase keeps exactly the files whose embedded
numeric index `n` satisfies `s ≤ n ≤ t` (a file with no embedded index is
dropped); on a 0-30 indexed sequence, bounds 10 and 20 keep exactly 11
layers. -/
theorem inclusive_index_filtering :
    (∀ (files : List FName) (s t : Nat),
      scanPhase (some s) (some t) files =
        (sortByKey (files.filter extOk)).filter (fun f =>
          match getNumericPart f with
          | some n => decide (s ≤ n ∧ n ≤ t)
          | none => false))
    ∧ (scanPhase (some 10) (some 20) seqFiles31).length = 11 := by
  constructor
  · intro files s t
    unfold scanPhase
    refine List.filter_congr ?_
    intro f _
    cases hk : getNumericPart f with
    | none => rfl
    | some n =>
      have hp : passesFilter (some s) (some t) (some n) =
          (decide (s ≤ n) && decide (n ≤ t)) := rfl
      rw [hp]
      simp
  · decide

/-- C9: each worker writes exactly one output file, named by the basename
of its own input file inside the configured destination directory, and
the written path depends only on the task's input filename (not on the
snapshot, the images, the core functions, or completion order). -/
theorem worker_output_naming {Mask Img : Type _} (core : CoreFns Mask Img)
    (t : LayerTask Mask Img) (outputFolder : FName) :
    writtenPaths core t outputFolder =
      [pathJoin outputFolder (basename t.filepath)]
    ∧ (processSingleImageTask core t outputFolder).length = 1
    ∧ (∀ (core2 : CoreFns Mask Img) (t2 : LayerTask Mask Img),
        t2.filepath = t.filepath →
        writtenPaths core2 t2 outputFolder = writtenPaths core t outputFolder) := by
  refine ⟨rfl, rfl, ?_⟩
  intro core2 t2 h2
  simp [writtenPaths, processSingleImageTask, h2]

def c9core : CoreFns Nat Nat := ⟨fun _ => 0, fun _ _ => 0, fun _ _ => 0, fun x => x⟩

def c9core2 : CoreFns Nat Nat :=
  ⟨fun _ => 1, fun _ _ => 2, fun _ _ => 3, fun x => x + 4⟩

def c9t : LayerTask Nat Nat := ⟨['i', '/', 'a', '.', 'p', 'n', 'g'], 5, 6, [7]⟩

def c9t2 : LayerTask Nat Nat := ⟨['i', '/', 'a', '.', 'p', 'n', 'g'], 8, 9, []⟩

/-- Witness for C9 on concrete tasks differing in everything except the
input filename. -/
theorem worker_output_naming_witness :
    writtenPaths c9core c9t ['o'] = [pathJoin ['o'] (basename c9t.filepath)]
    ∧ writtenPaths c9core2 c9t2 ['o'] = writtenPaths c9core c9t ['o'] :=
  ⟨(worker_output_naming c9core c9t ['o']).1,
   (worker_output_naming c9core c9t ['o']).2.2 c9core2 c9t2 (by decide)⟩

/-- C7: the scanned layer files are enumerated in ascending order of the
numeric index embedded as trailing digits before the extension (the sort
key order `keyRel`), the sorted list is a permutation of the input, and
every file whose name does not match the trailing-digits pattern sorts
after all matching files (non-matching keys only occur in a final
segment). -/
theorem enumeration_sorted_by_numeric_index (files : List FName) :
    List.Sorted keyRel (sortByKey files)
    ∧ (sortByKey files).Perm files
    ∧ (∀ (i j : Fin (sortByKey files).length), i < j →
        getNumericPart ((sortByKey files).get i) = none →
        getNumericPart ((sortByKey files).get j) = none) := by
  refine ⟨List.sorted_insertionSort keyRel files,
    List.perm_insertionSort keyRel files, ?_⟩
  intro i j hij hi
  have hrel : keyRel ((sortByKey files).get i) ((sortByKey files).get j) :=
    (List.sorted_insertionSort keyRel files).rel_get_of_lt hij
  unfold keyRel at hrel
  rw [hi] at hrel
  cases hj : getNumericPart ((sortByKey files).get j) with
  | none => rfl
  | some n =>
    rw [hj] at hrel
    exact absurd hrel (by simp [keyLE])

def c7w1 : FName := ['b', '1', '.', 'p', 'n', 'g']

def c7w2 : FName := ['x', 'y', '.', 't', 'x', 't']

def c7w3 : FName := ['n', 'o', 'p', 'e']

/-- Witness for C7: in the sorted list `[b1.png, xy.txt, nope]`, the
non-matching names occupy the final positions. -/
theorem enumeration_sorted_witness :
    getNumericPart ((sortByKey [c7w2, c7w1, c7w3]).get ⟨2, by decide⟩) = none :=
  (enumeration_sorted_by_numeric_index [c7w2, c7w1, c7w3]).2.2
    ⟨1, by decide⟩ ⟨2, by decide⟩ (by decide) (by decide)

/-- C1: every submitted layer task's mask-history snapshot equals the last
`receding_layers` masks of the tasks submitted strictly before it — so it
contains masks of previously loaded layers only, and never the layer's
own mask (whenever that mask value was not also pushed by an earlier
layer); moreover the submission loop only ever appends to the task list,
so pushes performed after a task is submitted leave the already-recorded
task and its snapshot unchanged. -/
theorem snapshot_contains_only_prior_masks {Mask Img Err : Type _}
    (cfg : PipeConfig) (env : PipeEnv Mask Img Err) (j : Nat)
    (t : LayerTask Mask Img) (hjt : (run cfg env).tasks[j]? = some t) :
    t.snapshot =
      (((run cfg env).tasks.take j).map (fun u => u.binaryImage)).rtake
        cfg.recedingLayers
    ∧ (t.binaryImage ∉ ((run cfg env).tasks.take j).map (fun u => u.binaryImage) →
        t.binaryImage ∉ t.snapshot)
    ∧ (∀ (fs : List FName) (st : SubState Mask Img), ∃ new,
        (submitLoop cfg.recedingLayers env.load cfg.inputFolder env.stopAt fs
          st).tasks = st.tasks ++ new) := by
  have hinv : snapInv cfg.recedingLayers (run cfg env).tasks := by
    by_cases hemp : (scanPhase cfg.startIndex cfg.stopIndex env.listdir).isEmpty = true
    · have h0 : (run cfg env).tasks = [] := by simp [run, hemp]
      rw [h0]
      exact snapInv_nil _
    · have h0 : (run cfg env).tasks = (runSub cfg env).tasks := by
        simp [run, hemp]
      rw [h0]
      exact submitLoop_snapInv cfg.recedingLayers env.load cfg.inputFolder
        env.stopAt _ _ (snapInv_nil _) (by simp [List.rtake])
  have h1 := hinv j t hjt
  refine ⟨h1, ?_, submitLoop_tasks_extend cfg.recedingLayers env.load
    cfg.inputFolder env.stopAt⟩
  intro hnot hmem
  apply hnot
  have hsub : t.snapshot ⊆
      ((run cfg env).tasks.take j).map (fun u => u.binaryImage) := by
    rw [h1]
    unfold List.rtake
    exact List.drop_subset _ _
  exact hsub hmem

def c1n0 : FName := ['a', '0', '.', 'p', 'n', 'g']

def c1n1 : FName := ['a', '1', '.', 'p', 'n', 'g']

def c1cfg : PipeConfig := ⟨false, ['i'], ['o'], none, none, 2⟩

def c1env : PipeEnv Nat Nat Nat :=
  { listdir := [c1n0, c1n1]
    load := fun f => if f = c1n0 then some (100, 200) else
      if f = c1n1 then some (101, 201) else none
    outcome := fun _ => Except.ok 0
    order := []
    stopAt := none }

def c1task : LayerTask Nat Nat := ⟨pathJoin ['i'] c1n1, 101, 201, [100]⟩

/-- Witness for C1 on a two-layer run: the second task's snapshot holds
exactly the first layer's mask and not its own. -/
theorem snapshot_contains_only_prior_masks_witness :
    c1task.snapshot =
      (((run c1cfg c1env).tasks.take 1).map (fun u => u.binaryImage)).rtake 2
    ∧ c1task.binaryImage ∉ c1task.snapshot :=
  ⟨(snapshot_contains_only_prior_masks c1cfg c1env 1 c1task (by decide)).1,
   (snapshot_contains_only_prior_masks c1cfg c1env 1 c1task (by decide)).2.1
     (by decide)⟩

/-- C2: on the first task failure in completion order, the triggering
error is the only error reported, every future receives a `cancel()`
call, repack is not triggered and the closing status is the
stopped-or-error one (the run fails), the successes observed before the
failure stay recorded (completed layers' outputs are not touched), and
the task list does not depend on outcomes at all — all submissions
precede result collection, so no task is submitted after the failure. -/
theorem first_failure_aborts {Mask Img Err : Type _}
    (cfg : PipeConfig) (env : PipeEnv Mask Img Err)
    (pre post : List FName) (nf : FName) (e : Err)
    (horder : env.order = pre ++ nf :: post)
    (hpre : ∀ n ∈ pre, ∃ i, env.outcome n = Except.ok i)
    (hf : env.outcome nf = Except.error e)
    (hstop : env.stopAt = none)
    (hne : (scanPhase cfg.startIndex cfg.stopIndex env.listdir).isEmpty = false) :
    (run cfg env).errors = [RunError.taskFailed e]
    ∧ (run cfg env).processedCount = pre.length
    ∧ (run cfg env).completedNames = pre
    ∧ (run cfg env).cancelledAll = true
    ∧ (run cfg env).repackRan = false
    ∧ (run cfg env).finalMsgComplete = false
    ∧ (∀ outcome2 : FName → Except Err Img,
        (run cfg { env with outcome := outcome2 }).tasks = (run cfg env).tasks) := by
  have hcol := collectLoop_first_failure env.outcome nf e hf pre post
    { reads := (runSub cfg env).reads, processedCount := 0,
      completedNames := [], errors := [], msgs := [], failed := false,
      cancelledAll := false, stoppedObserved := false } rfl hpre
  have hC : (runCol cfg env : ColState Err) =
      collectLoop env.outcome none (pre ++ nf :: post)
        { reads := (runSub cfg env).reads, processedCount := 0,
          completedNames := [], errors := [], msgs := [], failed := false,
          cancelledAll := false, stoppedObserved := false } := by
    unfold runCol
    rw [hstop, horder]
  obtain ⟨h1, h2, h3, h4, h5, h6⟩ := hcol
  rw [← hC] at h1 h2 h3 h4 h5 h6
  have herr : (run cfg env).errors = (runCol cfg env : ColState Err).errors := by
    simp [run, hne]
  have hcount : (run cfg env).processedCount =
      (runCol cfg env : ColState Err).processedCount := by
    simp [run, hne]
  have hnames : (run cfg env).completedNames =
      (runCol cfg env : ColState Err).completedNames := by
    simp [run, hne]
  have hcanc : (run cfg env).cancelledAll =
      (runCol cfg env : ColState Err).cancelledAll := by
    simp [run, hne]
  have hflagRepack : runFlagRepack cfg env = false := by
    unfold runFlagRepack
    rw [h5]
    rfl
  have hflagFinal : runFlagFinal cfg env = false := by
    unfold runFlagFinal
    rw [h5]
    rfl
  refine ⟨?_, ?_, ?_, ?_, ?_, ?_, ?_⟩
  · rw [herr, h1]
    simp
  · rw [hcount, h2]
    simp
  · rw [hnames, h3]
    simp
  · rw [hcanc, h4]
  · have : (run cfg env).repackRan = (cfg.inputModeUVTools && runFlagRepack cfg env) := by
      simp [run, hne]
    rw [this, hflagRepack]
    simp
  · have : (run cfg env).finalMsgComplete = runFlagFinal cfg env := by
      simp [run, hne]
    rw [this, hflagFinal]
  · intro outcome2
    by_cases hemp : (scanPhase cfg.startIndex cfg.stopIndex env.listdir).isEmpty = true
    · simp [run, hemp]
    · simp [run, hemp, runSub]

def c2n0 : FName := ['a', '0', '.', 'p', 'n', 'g']

def c2n1 : FName := ['a', '1', '.', 'p', 'n', 'g']

def c2cfg : PipeConfig := ⟨false, ['i'], ['o'], none, none, 1⟩

def c2env : PipeEnv Nat Nat Nat :=
  { listdir := [c2n0, c2n1]
    load := fun _ => some (0, 0)
    outcome := fun f =>
      if f = pathJoin ['i'] c2n1 then Except.error 42 else Except.ok 0
    order := [pathJoin ['i'] c2n0, pathJoin ['i'] c2n1]
    stopAt := none }

/-- Witness for C2 on a two-layer run whose second task fails. -/
theorem first_failure_aborts_witness :
    (run c2cfg c2env).errors = [RunError.taskFailed 42]
    ∧ (run c2cfg c2env).processedCount = 1
    ∧ (run c2cfg c2env).cancelledAll = true
    ∧ (run c2cfg c2env).repackRan = false := by
  have h := first_failure_aborts c2cfg c2env [pathJoin ['i'] c2n0] []
    (pathJoin ['i'] c2n1) 42 rfl
    (by
      intro n hn
      rw [List.mem_singleton] at hn
      subst hn
      exact ⟨0, rfl⟩)
    rfl rfl (by decide)
  exact ⟨h.1, h.2.1, h.2.2.2.1, h.2.2.2.2.1⟩

/-- C6: when the user's stop request is observed at the flag check of
submission iteration `s`, no further task is submitted (the run's tasks
are exactly those of the first `s` scanned files), a "stopped by user"
status is reported, no error is reported, `cancel()` is never called
(in-flight tasks may finish, preserving partial output), no repack runs,
and the run records the stop observation — a stopped run is thus
distinguished from a failed one, which reports an error. -/
theorem user_stop_cooperative {Mask Img Err : Type _}
    (cfg : PipeConfig) (env : PipeEnv Mask Img Err) (s : Nat)
    (hstop : env.stopAt = some s)
    (hs : s < (scanPhase cfg.startIndex cfg.stopIndex env.listdir).length) :
    (run cfg env).tasks =
      pureSubmit cfg.recedingLayers env.load cfg.inputFolder
        ((scanPhase cfg.startIndex cfg.stopIndex env.listdir).take s) []
    ∧ Msg.stoppedByUser ∈ (run cfg env).msgs
    ∧ (run cfg env).errors = []
    ∧ (run cfg env).processedCount = 0
    ∧ (run cfg env).cancelledAll = false
    ∧ (run cfg env).repackRan = false
    ∧ (run cfg env).stoppedObserved = true := by
  have hne : (scanPhase cfg.startIndex cfg.stopIndex env.listdir).isEmpty = false := by
    cases hE : (scanPhase cfg.startIndex cfg.stopIndex env.listdir).isEmpty
    · rfl
    · rw [List.isEmpty_iff.mp hE] at hs
      simp at hs
  have hSub : runSub cfg env =
      submitLoop cfg.recedingLayers env.load cfg.inputFolder (some s)
        (scanPhase cfg.startIndex cfg.stopIndex env.listdir)
        { reads := 0, cache := [], tasks := [], msgs := [Msg.processingStarted],
          stoppedObserved := false } := by
    unfold runSub
    rw [hstop]
  have htasks : (runSub cfg env).tasks =
      pureSubmit cfg.recedingLayers env.load cfg.inputFolder
        ((scanPhase cfg.startIndex cfg.stopIndex env.listdir).take s) [] := by
    rw [hSub]
    have := submitLoop_some_tasks cfg.recedingLayers env.load cfg.inputFolder s
      (scanPhase cfg.startIndex cfg.stopIndex env.listdir)
      { reads := 0, cache := [], tasks := [], msgs := [Msg.processingStarted],
        stoppedObserved := false } (Nat.zero_le s)
    rw [this]
    simp
  have hbreak := submitLoop_some_break cfg.recedingLayers env.load
    cfg.inputFolder s (scanPhase cfg.startIndex cfg.stopIndex env.listdir)
    { reads := 0, cache := [], tasks := [], msgs := [Msg.processingStarted],
      stoppedObserved := false } (Nat.zero_le s) (by simpa using hs)
  rw [← hSub] at hbreak
  obtain ⟨hso, hmsg, hreads⟩ := hbreak
  have hflag0 : flagRead env.stopAt false (runSub cfg env).reads = false := by
    rw [hstop, hreads]
    exact flagRead_some_of_ge (by omega) _
  have hcol := collectLoop_flag_false env.outcome env.stopAt env.order
    { reads := (runSub cfg env).reads, processedCount := 0,
      completedNames := [], errors := [], msgs := [], failed := false,
      cancelledAll := false, stoppedObserved := false } hflag0
  have hC : (runCol cfg env : ColState Err) =
      collectLoop env.outcome env.stopAt env.order
        { reads := (runSub cfg env).reads, processedCount := 0,
          completedNames := [], errors := [], msgs := [], failed := false,
          cancelledAll := false, stoppedObserved := false } := rfl
  rw [← hC] at hcol
  obtain ⟨hcerr, hcproc, hcnames, hccanc, hcfail⟩ := hcol
  have hcreads : (runSub cfg env).reads ≤ (runCol cfg env : ColState Err).reads := by
    unfold runCol
    exact collectLoop_reads_mono env.outcome env.stopAt env.order
      { reads := (runSub cfg env).reads, processedCount := 0,
        completedNames := [], errors := [], msgs := [], failed := false,
        cancelledAll := false, stoppedObserved := false }
  have hflagRepack : runFlagRepack cfg env = false := by
    unfold runFlagRepack
    rw [hcfail]
    exact flagRead_false_mono hcreads hflag0
  refine ⟨?_, ?_, ?_, ?_, ?_, ?_, ?_⟩
  · rw [show (run cfg env).tasks = (runSub cfg env).tasks by simp [run, hne]]
    exact htasks
  · rw [show (run cfg env).msgs = (runSub cfg env).msgs ++
      ((runCol cfg env : ColState Err).msgs ++ [Msg.allTasksCompleted,
        if runFlagFinal cfg env then Msg.processingComplete
        else Msg.processingStoppedOrError]) by simp [run, hne]]
    exact List.mem_append_left _ hmsg
  · rw [show (run cfg env).errors = (runCol cfg env : ColState Err).errors by
      simp [run, hne]]
    exact hcerr
  · rw [show (run cfg env).processedCount =
      (runCol cfg env : ColState Err).processedCount by simp [run, hne]]
    exact hcproc
  · rw [show (run cfg env).cancelledAll =
      (runCol cfg env : ColState Err).cancelledAll by simp [run, hne]]
    exact hccanc
  · rw [show (run cfg env).repackRan =
      (cfg.inputModeUVTools && runFlagRepack cfg env) by simp [run, hne]]
    rw [hflagRepack]
    simp
  · rw [show (run cfg env).stoppedObserved = ((runSub cfg env).stoppedObserved ||
      (runCol cfg env : ColState Err).stoppedObserved ||
      (cfg.inputModeUVTools &&
        (!(runCol cfg env : ColState Err).failed && !runFlagRepack cfg env)))
      by simp [run, hne]]
    rw [hso]
    simp

def c6n0 : FName := ['b', '0', '.', 'p', 'n', 'g']

def c6n1 : FName := ['b', '1', '.', 'p', 'n', 'g']

def c6cfg : PipeConfig := ⟨false, ['i'], ['o'], none, none, 1⟩

def c6env : PipeEnv Nat Nat Nat :=
  { listdir := [c6n0, c6n1]
    load := fun _ => some (0, 0)
    outcome := fun _ => Except.ok 0
    order := [pathJoin ['i'] c6n0]
    stopAt := some 1 }

/-- Witness for C6: a stop observed before the second submission leaves
exactly one task, reports "stopped by user" and no error. -/
theorem user_stop_cooperative_witness :
    (run c6cfg c6env).tasks =
      pureSubmit 1 c6env.load ['i'] ((scanPhase none none c6env.listdir).take 1) []
    ∧ Msg.stoppedByUser ∈ (run c6cfg c6env).msgs
    ∧ (run c6cfg c6env).errors = []
    ∧ (run c6cfg c6env).repackRan = false := by
  have h := user_stop_cooperative c6cfg c6env 1 rfl (by decide)
  exact ⟨h.1, h.2.1, h.2.2.1, h.2.2.2.2.2.1⟩

/-- An error list that grew during collection means the failure flag was
set. -/
theorem collectLoop_failed_of_errors {Img Err : Type _}
    (o : FName → Except Err Img) (sa : Option Nat) :
    ∀ (ns : List FName) (st : ColState Err),
      (collectLoop o sa ns st).errors ≠ st.errors →
      (collectLoop o sa ns st).failed = true := by
  intro ns
  induction ns with
  | nil => intro st h; exact absurd rfl h
  | cons n ns ih =>
    intro st h
    by_cases hf : flagRead sa st.failed st.reads
    · cases ho : o n with
      | ok i =>
        simp only [collectLoop, if_pos hf, ho] at h ⊢
        exact ih _ h
      | error e =>
        simp only [collectLoop, if_pos hf, ho]
    · simp only [collectLoop, if_neg hf] at h
      exact absurd rfl h

/-- C8: repack runs only on completion.  A run that observed a user stop
at any work-aborting flag check, or that reported any error (a task
failure or the no-images input error), never triggers the repack
collaborator; a uvtools-mode run with no user stop request and no error
always triggers it. -/
theorem repack_only_on_completion {Mask Img Err : Type _}
    (cfg : PipeConfig) (env : PipeEnv Mask Img Err) :
    ((run cfg env).stoppedObserved = true → (run cfg env).repackRan = false)
    ∧ ((run cfg env).errors ≠ [] → (run cfg env).repackRan = false)
    ∧ (cfg.inputModeUVTools = true → env.stopAt = none →
        (run cfg env).errors = [] → (run cfg env).repackRan = true) := by
  by_cases hemp : (scanPhase cfg.startIndex cfg.stopIndex env.listdir).isEmpty = true
  · refine ⟨?_, ?_, ?_⟩
    · intro _
      simp [run, hemp]
    · intro _
      simp [run, hemp]
    · intro _ _ h3
      have : (run cfg env).errors = [RunError.noImagesFound] := by simp [run, hemp]
      rw [this] at h3
      exact absurd h3 (by simp)
  · have hso : (run cfg env).stoppedObserved = ((runSub cfg env).stoppedObserved ||
        (runCol cfg env : ColState Err).stoppedObserved ||
        (cfg.inputModeUVTools &&
          (!(runCol cfg env : ColState Err).failed && !runFlagRepack cfg env))) := by
      simp [run, hemp]
    have herr : (run cfg env).errors = (runCol cfg env : ColState Err).errors := by
      simp [run, hemp]
    have hrep : (run cfg env).repackRan =
        (cfg.inputModeUVTools && runFlagRepack cfg env) := by
      simp [run, hemp]
    have hreads : (runSub cfg env).reads ≤ (runCol cfg env : ColState Err).reads := by
      unfold runCol
      exact collectLoop_reads_mono env.outcome env.stopAt env.order
        { reads := (runSub cfg env).reads, processedCount := 0,
          completedNames := [], errors := [], msgs := [], failed := false,
          cancelledAll := false, stoppedObserved := false }
    refine ⟨?_, ?_, ?_⟩
    · intro h
      rw [hso] at h
      rw [hrep]
      rcases Bool.or_eq_true_iff.mp h with h12 | h3
      · rcases Bool.or_eq_true_iff.mp h12 with h1 | h2
        · have hflag : flagRead env.stopAt false (runSub cfg env).reads = false :=
            submitLoop_stopObs_flag cfg.recedingLayers env.load cfg.inputFolder
              env.stopAt (scanPhase cfg.startIndex cfg.stopIndex env.listdir)
              { reads := 0, cache := [], tasks := [],
                msgs := [Msg.processingStarted], stoppedObserved := false }
              (fun hx => Bool.noConfusion hx) h1
          have hfr : runFlagRepack cfg env = false := by
            unfold runFlagRepack
            cases hfl : (runCol cfg env : ColState Err).failed
            · exact flagRead_false_mono hreads hflag
            · rfl
          rw [hfr]
          simp
        · have hflag := collectLoop_stopObs_flag env.outcome env.stopAt env.order
            { reads := (runSub cfg env).reads, processedCount := 0,
              completedNames := [], errors := [], msgs := [], failed := false,
              cancelledAll := false, stoppedObserved := false }
            (fun hx => Bool.noConfusion hx) h2
          have hfr : runFlagRepack cfg env = false := hflag
          rw [hfr]
          simp
      · rcases Bool.and_eq_true_iff.mp h3 with ⟨_, h34⟩
        rcases Bool.and_eq_true_iff.mp h34 with ⟨_, h4⟩
        have hfr : runFlagRepack cfg env = false := by
          cases hv : runFlagRepack cfg env
          · rfl
          · rw [hv] at h4
            exact Bool.noConfusion h4
        rw [hfr]
        simp
    · intro h
      rw [herr] at h
      have hfail : (runCol cfg env : ColState Err).failed = true := by
        unfold runCol at h ⊢
        exact collectLoop_failed_of_errors env.outcome env.stopAt env.order _ h
      have hfr : runFlagRepack cfg env = false := by
        unfold runFlagRepack
        rw [hfail]
        rfl
      rw [hrep, hfr]
      simp
    · intro huv hnone h0
      rw [herr] at h0
      have hfail : (runCol cfg env : ColState Err).failed = false := by
        unfold runCol at h0 ⊢
        exact collectLoop_not_failed env.outcome env.stopAt env.order _ rfl h0
      have hfr : runFlagRepack cfg env = true := by
        unfold runFlagRepack
        rw [hfail, hnone]
        rfl
      rw [hrep, hfr, huv]
      rfl

def c8n0 : FName := ['c', '0', '.', 'p', 'n', 'g']

def c8cfg : PipeConfig := ⟨true, ['i'], ['o'], none, none, 1⟩

def c8envStop : PipeEnv Nat Nat Nat :=
  { listdir := [c8n0]
    load := fun _ => some (0, 0)
    outcome := fun _ => Except.ok 0
    order := []
    stopAt := some 0 }

def c8envOk : PipeEnv Nat Nat Nat :=
  { listdir := [c8n0]
    load := fun _ => some (0, 0)
    outcome := fun _ => Except.ok 0
    order := [pathJoin ['i'] c8n0]
    stopAt := none }

/-- Witness for C8: a uvtools run stopped by the user does not repack; the
same run left alone with all tasks succeeding does. -/
theorem repack_only_on_completion_witness :
    (run c8cfg c8envStop).repackRan = false
    ∧ (run c8cfg c8envOk).repackRan = true :=
  ⟨(repack_only_on_completion c8cfg c8envStop).1 (by decide),
   (repack_only_on_completion c8cfg c8envOk).2.2 rfl rfl (by decide)⟩

def c4n0 : FName := ['a', '0', '.', 'p', 'n', 'g']

def c4n1 : FName := ['a', '1', '.', 'p', 'n', 'g']

def c4n2 : FName := ['a', '2', '.', 'p', 'n', 'g']

def c4cfg : PipeConfig := ⟨false, ['i'], ['o'], none, none, 2⟩

def c4env : PipeEnv Nat Nat Nat :=
  { listdir := [c4n0, c4n1, c4n2]
    load := fun f => if f = c4n1 then none else some (1, 1)
    outcome := fun _ => Except.ok 1
    order := [pathJoin ['i'] c4n0, pathJoin ['i'] c4n2]
    stopAt := none }

/-- Counterexample to C4 as stated: with the middle layer `a1.png`
unreadable, the run still submits a task for the later file `a2.png`
(two tasks in total, the second for a file after the unreadable one) and
reports no error at all — the unreadable image neither aborts the run
before task submission nor surfaces an error. -/
theorem unreadable_image_not_fatal_counterexample :
    (run c4cfg c4env).tasks.map (fun t => t.filepath) =
      [pathJoin ['i'] c4n0, pathJoin ['i'] c4n2]
    ∧ (run c4cfg c4env).errors = [] := by decide

/-- C4 (amended): an unreadable image is skipped rather than fatal: the
run submits tasks for exactly the loadable files of the scanned list (in
order), no task is submitted for the unreadable file itself, a
"skipping unloadable image" status is emitted for it, and processing
continues with the files after it; no error is reported for it. -/
theorem unreadable_image_skipped {Mask Img Err : Type _}
    (cfg : PipeConfig) (env : PipeEnv Mask Img Err)
    (hstop : env.stopAt = none) :
    (run cfg env).tasks =
      pureSubmit cfg.recedingLayers env.load cfg.inputFolder
        (scanPhase cfg.startIndex cfg.stopIndex env.listdir) []
    ∧ (run cfg env).tasks.map (fun t => t.filepath) =
        ((scanPhase cfg.startIndex cfg.stopIndex env.listdir).filter
          (fun f => (env.load f).isSome)).map (pathJoin cfg.inputFolder)
    ∧ (∀ f ∈ scanPhase cfg.startIndex cfg.stopIndex env.listdir,
        env.load f = none →
        Msg.skippingUnloadable f ∈ (run cfg env).msgs) := by
  by_cases hemp : (scanPhase cfg.startIndex cfg.stopIndex env.listdir).isEmpty = true
  · have hnil : scanPhase cfg.startIndex cfg.stopIndex env.listdir = [] :=
      List.isEmpty_iff.mp hemp
    refine ⟨?_, ?_, ?_⟩
    · rw [hnil]
      simp [run, hemp, pureSubmit]
    · rw [hnil]
      simp [run, hemp]
    · intro f hf
      rw [hnil] at hf
      exact absurd hf (List.not_mem_nil f)
  · have hSub : runSub cfg env =
        submitLoop cfg.recedingLayers env.load cfg.inputFolder none
          (scanPhase cfg.startIndex cfg.stopIndex env.listdir)
          { reads := 0, cache := [], tasks := [],
            msgs := [Msg.processingStarted], stoppedObserved := false } := by
      unfold runSub
      rw [hstop]
    have htasks : (run cfg env).tasks =
        pureSubmit cfg.recedingLayers env.load cfg.inputFolder
          (scanPhase cfg.startIndex cfg.stopIndex env.listdir) [] := by
      rw [show (run cfg env).tasks = (runSub cfg env).tasks by simp [run, hemp],
        hSub, submitLoop_none_tasks]
      simp
    refine ⟨htasks, ?_, ?_⟩
    · rw [htasks, pureSubmit_map_filepath]
    · intro f hf hload
      rw [show (run cfg env).msgs = (runSub cfg env).msgs ++
        ((runCol cfg env : ColState Err).msgs ++ [Msg.allTasksCompleted,
          if runFlagFinal cfg env then Msg.processingComplete
          else Msg.processingStoppedOrError]) by simp [run, hemp]]
      refine List.mem_append_left _ ?_
      rw [hSub]
      exact submitLoop_none_skipMsg cfg.recedingLayers env.load cfg.inputFolder
        (scanPhase cfg.startIndex cfg.stopIndex env.listdir) _ f hf hload

/-- Witness for the amended C4 on the three-layer run with `a1.png`
unreadable: tasks are exactly the loadable files and the skip status is
emitted. -/
theorem unreadable_image_skipped_witness :
    (run c4cfg c4env).tasks.map (fun t => t.filepath) =
      ((scanPhase none none c4env.listdir).filter
        (fun f => (c4env.load f).isSome)).map (pathJoin ['i'])
    ∧ Msg.skippingUnloadable c4n1 ∈ (run c4cfg c4env).msgs :=
  ⟨(unreadable_image_skipped c4cfg c4env rfl).2.1,
   (unreadable_image_skipped c4cfg c4env rfl).2.2 c4n1 (by decide) (by decide)⟩

/-! ## Lemmas about the edit dictionary -/

theorem editsGet_nil {C : Type _} (l : Nat) : editsGet ([] : EditDict C) l = [] := rfl

theorem editsGet_cons {C : Type _} (k : Nat) (v : List C) (d : EditDict C)
    (l : Nat) : editsGet ((k, v) :: d) l = if k = l then v else editsGet d l := by
  by_cases h : k = l
  · simp [editsGet, List.find?_cons, h]
  · simp [editsGet, List.find?_cons, h]

theorem editsGet_dictAppend {C : Type _} (d : EditDict C) (l : Nat) (c : C) :
    ∀ l' : Nat, editsGet (dictAppend d l c) l' =
      if l' = l then editsGet d l ++ [c] else editsGet d l' := by
  induction d with
  | nil =>
    intro l'
    rw [show dictAppend ([] : EditDict C) l c = [(l, [c])] from rfl, editsGet_cons]
    by_cases h : l' = l
    · subst h
      simp [editsGet_nil]
    · have h2 : ¬ l = l' := fun hx => h hx.symm
      simp [h, h2, editsGet_nil]
  | cons p rest ih =>
    intro l'
    obtain ⟨k, v⟩ := p
    by_cases hk : k = l
    · subst hk
      have hd : dictAppend ((k, v) :: rest) k c = (k, v ++ [c]) :: rest := by
        simp [dictAppend]
      rw [hd]
      by_cases h : l' = k
      · subst h
        simp [editsGet_cons]
      · have h2 : ¬ k = l' := fun hx => h hx.symm
        simp [editsGet_cons, h, h2]
    · have hd : dictAppend ((k, v) :: rest) l c = (k, v) :: dictAppend rest l c := by
        simp [dictAppend, hk]
      rw [hd, editsGet_cons, ih l']
      by_cases h1 : l' = l
      · subst h1
        have h2 : ¬ k = l' := hk
        simp [editsGet_cons, h2]
      · simp [editsGet_cons, h1]

theorem editsGet_dictRemoveFirst {C : Type _} [DecidableEq C] (d : EditDict C)
    (l : Nat) (c : C) :
    ∀ l' : Nat, editsGet (dictRemoveFirst d l c) l' =
      if l' = l then (editsGet d l).erase c else editsGet d l' := by
  induction d with
  | nil =>
    intro l'
    rw [show dictRemoveFirst ([] : EditDict C) l c = [] from rfl]
    by_cases h : l' = l
    · simp [h, editsGet_nil]
    · simp [h, editsGet_nil]
  | cons p rest ih =>
    intro l'
    obtain ⟨k, v⟩ := p
    by_cases hk : k = l
    · subst hk
      have hd : dictRemoveFirst ((k, v) :: rest) k c = (k, v.erase c) :: rest := by
        simp [dictRemoveFirst]
      rw [hd]
      by_cases h : l' = k
      · subst h
        simp [editsGet_cons]
      · have h2 : ¬ k = l' := fun hx => h hx.symm
        simp [editsGet_cons, h, h2]
    · have hd : dictRemoveFirst ((k, v) :: rest) l c =
          (k, v) :: dictRemoveFirst rest l c := by
        simp [dictRemoveFirst, hk]
      rw [hd, editsGet_cons, ih l']
      by_cases h1 : l' = l
      · subst h1
        have h2 : ¬ k = l' := hk
        simp [editsGet_cons, h2]
      · simp [editsGet_cons, h1]

theorem performUndo_eq {C : Type _} [DecidableEq C] (layerOf : C → Nat)
    (q : Project C) (c : C) (h : q.undoStack.getLast? = some c) :
    performUndo layerOf q = (some c,
      { edits := dictRemoveFirst q.edits (layerOf c) c
        undoStack := q.undoStack.dropLast
        redoStack := q.redoStack ++ [c] }) := by
  unfold performUndo
  rw [h]

theorem performRedo_eq {C : Type _} [DecidableEq C] (layerOf : C → Nat)
    (q : Project C) (c : C) (h : q.redoStack.getLast? = some c) :
    performRedo layerOf q = (some c,
      { edits := dictAppend q.edits (layerOf c) c
        undoStack := q.undoStack ++ [c]
        redoStack := q.redoStack.dropLast }) := by
  unfold performRedo
  rw [h]

/-- C10: undo/redo round-trip.  In a project state satisfying the
reachable-state invariant (`undoCountInv`), with a non-empty undo stack
whose top is `c`: `perform_undo` returns `c`, pops it from the undo
stack, pushes it onto the redo stack and removes one occurrence of it
from its layer's edit list (all other layer/command counts unchanged);
an immediately following `perform_redo` returns `c` again, restores the
undo stack and the redo stack, and re-adds `c` to the same layer,
leaving every per-layer edit multiset equal to the original.  On an
empty undo (resp. redo) stack, `perform_undo` (resp. `perform_redo`)
returns `none` and changes nothing. -/
theorem undo_redo_round_trip {C : Type _} [DecidableEq C] (layerOf : C → Nat)
    (p : Project C) (c : C)
    (hinv : undoCountInv layerOf p)
    (hlast : p.undoStack.getLast? = some c) :
    (performUndo layerOf p).1 = some c
    ∧ (performUndo layerOf p).2.undoStack = p.undoStack.dropLast
    ∧ (performUndo layerOf p).2.redoStack = p.redoStack ++ [c]
    ∧ (editsGet (performUndo layerOf p).2.edits (layerOf c)).count c + 1 =
        (editsGet p.edits (layerOf c)).count c
    ∧ (∀ (l : Nat) (d : C), (l = layerOf c → d = c → False) →
        (editsGet (performUndo layerOf p).2.edits l).count d =
          (editsGet p.edits l).count d)
    ∧ (performRedo layerOf (performUndo layerOf p).2).1 = some c
    ∧ (performRedo layerOf (performUndo layerOf p).2).2.undoStack = p.undoStack
    ∧ (performRedo layerOf (performUndo layerOf p).2).2.redoStack = p.redoStack
    ∧ (∀ (l : Nat) (d : C),
        (editsGet (performRedo layerOf (performUndo layerOf p).2).2.edits
          l).count d = (editsGet p.edits l).count d)
    ∧ (∀ q : Project C, q.undoStack = [] → performUndo layerOf q = (none, q))
    ∧ (∀ q : Project C, q.redoStack = [] → performRedo layerOf q = (none, q)) := by
  obtain ⟨us, hus⟩ := List.getLast?_eq_some_iff.mp hlast
  have hpos : 1 ≤ (editsGet p.edits (layerOf c)).count c := by
    have h1 := hinv c
    rw [hus] at h1
    simp at h1
    omega
  have hU := performUndo_eq layerOf p c hlast
  have hRedoLast : (p.redoStack ++ [c]).getLast? = some c :=
    List.getLast?_concat _
  have hR : performRedo layerOf (performUndo layerOf p).2 = (some c,
      { edits := dictAppend (dictRemoveFirst p.edits (layerOf c) c) (layerOf c) c
        undoStack := p.undoStack.dropLast ++ [c]
        redoStack := (p.redoStack ++ [c]).dropLast }) := by
    rw [hU]
    exact performRedo_eq layerOf _ c hRedoLast
  have hDropConcat : p.undoStack.dropLast ++ [c] = p.undoStack := by
    rw [hus]
    simp
  refine ⟨?_, ?_, ?_, ?_, ?_, ?_, ?_, ?_, ?_, ?_, ?_⟩
  · rw [hU]
  · rw [hU]
  · rw [hU]
  · rw [hU]
    show (editsGet (dictRemoveFirst p.edits (layerOf c) c) (layerOf c)).count c
        + 1 = (editsGet p.edits (layerOf c)).count c
    rw [editsGet_dictRemoveFirst, if_pos rfl, List.count_erase_self]
    omega
  · intro l d hne
    rw [hU]
    show (editsGet (dictRemoveFirst p.edits (layerOf c) c) l).count d =
      (editsGet p.edits l).count d
    rw [editsGet_dictRemoveFirst]
    by_cases hl : l = layerOf c
    · rw [if_pos hl, hl]
      have hd : d ≠ c := fun hd => hne hl hd
      exact List.count_erase_of_ne hd _
    · rw [if_neg hl]
  · rw [hR]
  · rw [hR]
    show p.undoStack.dropLast ++ [c] = p.undoStack
    exact hDropConcat
  · rw [hR]
    show (p.redoStack ++ [c]).dropLast = p.redoStack
    simp
  · intro l d
    rw [hR]
    show (editsGet (dictAppend (dictRemoveFirst p.edits (layerOf c) c)
      (layerOf c) c) l).count d = (editsGet p.edits l).count d
    rw [editsGet_dictAppend]
    by_cases hl : l = layerOf c
    · rw [if_pos hl, hl, editsGet_dictRemoveFirst, if_pos rfl]
      by_cases hd : d = c
      · subst hd
        rw [List.count_append, List.count_erase_self]
        simp
        omega
      · rw [List.count_append, List.count_erase_of_ne hd]
        have h0 : [c].count d = 0 := by
          simp [List.count_singleton]
          exact fun hx => hd (Eq.symm hx)
        rw [h0]
        omega
    · rw [if_neg hl, editsGet_dictRemoveFirst, if_neg hl]
  · intro q hq
    unfold performUndo
    rw [show q.undoStack.getLast? = none from by rw [hq]; rfl]
  · intro q hq
    unfold performRedo
    rw [show q.redoStack.getLast? = none from by rw [hq]; rfl]

def c10layer : Nat → Nat := fun _ => 0

def c10p : Project Nat := ⟨[(0, [5])], [5], []⟩

/-- Witness for C10 on a one-edit project: undo returns the edit, and
undo followed by redo restores the undo stack and the edit counts. -/
theorem undo_redo_round_trip_witness :
    (performUndo c10layer c10p).1 = some 5
    ∧ (performRedo c10layer (performUndo c10layer c10p).2).2.undoStack =
        c10p.undoStack
    ∧ (editsGet (performRedo c10layer
        (performUndo c10layer c10p).2).2.edits 0).count 5 =
        (editsGet c10p.edits 0).count 5 := by
  have h := undo_redo_round_trip c10layer c10p 5 (fun d => Nat.le_refl _) rfl
  exact ⟨h.1, h.2.2.2.2.2.2.1, h.2.2.2.2.2.2.2.2.1 0 5⟩

/-- Pushing a command onto the undo stack while appending it to its
layer's edit list preserves the count invariant. -/
theorem undoCountInv_push {C : Type _} [DecidableEq C] (layerOf : C → Nat)
    (edits : EditDict C) (undo : List C) (c : C)
    (h : ∀ d, undo.count d ≤ (editsGet edits (layerOf d)).count d) :
    ∀ d, (undo ++ [c]).count d ≤
      (editsGet (dictAppend edits (layerOf c) c) (layerOf d)).count d := by
  intro d
  rw [List.count_append, editsGet_dictAppend]
  by_cases hl : layerOf d = layerOf c
  · rw [if_pos hl, List.count_append]
    have hd := h d
    rw [hl] at hd
    omega
  · rw [if_neg hl]
    have hdc : d = c → False := fun hx => hl (by rw [hx])
    have h0 : [c].count d = 0 := by
      simp [List.count_singleton]
      exact fun hx => hdc (Eq.symm hx)
    rw [h0]
    have hd := h d
    omega

theorem undoCountInv_addEdit {C : Type _} [DecidableEq C] (layerOf : C → Nat)
    (p : Project C) (c : C) (h : undoCountInv layerOf p) :
    undoCountInv layerOf (addEdit layerOf p c) :=
  undoCountInv_push layerOf p.edits p.undoStack c h

theorem undoCountInv_performUndo {C : Type _} [DecidableEq C]
    (layerOf : C → Nat) (p : Project C) (h : undoCountInv layerOf p) :
    undoCountInv layerOf (performUndo layerOf p).2 := by
  cases hlast : p.undoStack.getLast? with
  | none =>
    unfold performUndo
    rw [hlast]
    exact h
  | some c =>
    rw [performUndo_eq layerOf p c hlast]
    obtain ⟨us, hus⟩ := List.getLast?_eq_some_iff.mp hlast
    intro d
    show (p.undoStack.dropLast).count d ≤
      (editsGet (dictRemoveFirst p.edits (layerOf c) c) (layerOf d)).count d
    have hdrop : p.undoStack.dropLast = us := by
      rw [hus]
      simp
    have hd := h d
    rw [hus, List.count_append] at hd
    rw [hdrop, editsGet_dictRemoveFirst]
    by_cases hl : layerOf d = layerOf c
    · rw [if_pos hl]
      by_cases hdc : d = c
      · subst hdc
        rw [List.count_erase_self]
        rw [hl] at hd
        simp at hd
        omega
      · have hcnt : (List.count d ((editsGet p.edits (layerOf c)).erase c)) =
            List.count d (editsGet p.edits (layerOf c)) :=
          List.count_erase_of_ne hdc _
        rw [hcnt, ← hl]
        omega
    · rw [if_neg hl]
      omega
  
theorem undoCountInv_performRedo {C : Type _} [DecidableEq C]
    (layerOf : C → Nat) (p : Project C) (h : undoCountInv layerOf p) :
    undoCountInv layerOf (performRedo layerOf p).2 := by
  cases hlast : p.redoStack.getLast? with
  | none =>
    unfold performRedo
    rw [hlast]
    exact h
  | some c =>
    rw [performRedo_eq layerOf p c hlast]
    exact undoCountInv_push layerOf p.edits p.undoStack c h

/-- Project states reachable through the public operations. -/
inductive ProjReachable {C : Type _} [DecidableEq C] (layerOf : C → Nat) :
    Project C → Prop where
  | empty : ProjReachable layerOf ⟨[], [], []⟩
  | add {p : Project C} (c : C) : ProjReachable layerOf p →
      ProjReachable layerOf (addEdit layerOf p c)
  | undo {p : Project C} : ProjReachable layerOf p →
      ProjReachable layerOf (performUndo layerOf p).2
  | redo {p : Project C} : ProjReachable layerOf p →
      ProjReachable layerOf (performRedo layerOf p).2

/-- Every reachable project state satisfies the count invariant assumed
by the undo/redo round-trip theorem. -/
theorem reachable_undoCountInv {C : Type _} [DecidableEq C]
    (layerOf : C → Nat) (p : Project C) (h : ProjReachable layerOf p) :
    undoCountInv layerOf p := by
  induction h with
  | empty => intro d; simp [editsGet_nil]
  | add c _ ih => exact undoCountInv_addEdit layerOf _ c ih
  | undo _ ih => exact undoCountInv_performUndo layerOf _ ih
  | redo _ ih => exact undoCountInv_performRedo layerOf _ ih
